import Mathlib

/-!
Piecewise function evaluator, bisection solver and grid sweeps (`main.c`).

Shallow embedding of the numerical core of `src/main.c`.  The C `double`s are read
as real numbers, `int` flags as integers, and the text printed by `find_x_for_y`,
`print_table` and `min_max` as lists of output events.  Output parameters
(`int* ok`, `double* root`) become extra components of the returned value.

The definitions go through `Real.exp`, `Real.log` and `Real.sqrt` and the order of
the reals, so they are noncomputable; values at concrete inputs are obtained by
rewriting with the defining equations.  All loops are total functions: the loop of
`bisection` by its iteration counter, the loops of `find_x_for_y`, `print_table` and
`min_max` because a positive step passes the right end after finitely many
additions.
-/

namespace MainC

noncomputable section

/-! ## Constants -/

/-- The C constant `EPS` (`#define EPS 1e-8`). -/
def EPS : ℝ := 1e-8

/-- The C constant `ZERO_TOL` (`#define ZERO_TOL 1e-12`). -/
def ZERO_TOL : ℝ := 1e-12

/-! ## `crosses_undefined` -/

/-- C function `crosses_undefined` (lines 14-17), the C truth value read as a `Bool`. -/
def crosses_undefined (a b : ℝ) : Bool :=
  decide ((a < 0 ∧ b > 0) ∨ |a| < ZERO_TOL ∨ |b| < ZERO_TOL)

/-! ## `f_value` and `f_deriv` -/

/-- The local `int sign = (n % 2 == 0) ? 1 : -1;` of both series loops. -/
def sign (n : ℕ) : ℤ := if n % 2 = 0 then 1 else -1

/-- C function `f_value` (lines 20-37).  Returns `(value, ok)`; the loop
`for (n = 0; n <= 5; ++n) s += sign * pow(x, n) / sqrt(n + 2.0)` is a left fold
starting from `s = 0.0`. -/
def f_value (x : ℝ) : ℝ × ℤ :=
  if x < -1 then
    (Real.exp (-x * x), 1)
  else if x ≥ -1 ∧ x < 1 then
    if |x| < ZERO_TOL then (0, 0)
    else (Real.log |x| / x, 1)
  else
    ((List.range 6).foldl
      (fun s n => s + (sign n : ℝ) * x ^ n / Real.sqrt ((n : ℝ) + 2)) 0, 1)

/-- C function `f_deriv` (lines 40-59).  Returns `(value, ok)`; the loop runs over
`n = 1 .. 5` and the product `sign * n` is taken in `int` before the conversion. -/
def f_deriv (x : ℝ) : ℝ × ℤ :=
  if x < -1 then
    (-2 * x * Real.exp (-x * x), 1)
  else if x ≥ -1 ∧ x < 1 then
    if |x| < ZERO_TOL then (0, 0)
    else ((1 - Real.log |x|) / (x * x), 1)
  else
    ((List.range' 1 5).foldl
      (fun s n => s + ((sign n * (n : ℤ) : ℤ) : ℝ) * x ^ (n - 1) / Real.sqrt ((n : ℝ) + 2)) 0, 1)

/-! ## `bisection` -/

/-- Lines 113-120 of `bisection`: the midpoint `c = 0.5 * (a + b)`, the residual
`fc = f(c) - y`, and the single retry at `c + 1e-6` when `f` is undefined at `c`.
`none` is the `return 0` of line 119, otherwise the pair `(c, fc)`. -/
def bisection_mid (a b y : ℝ) : Option (ℝ × ℝ) :=
  let c := 0.5 * (a + b)
  if (f_value c).2 = 0 then
    let c := c + 1e-6
    if (f_value c).2 = 0 then none
    else some (c, (f_value c).1 - y)
  else some (c, (f_value c).1 - y)

/-- The `for (it = 0; it < 1000 && fabs(b - a) > eps; ++it)` loop of `bisection`
(lines 112-123), started at iteration `it` with state `a, b, fa, fb`.  `none` is
the early `return 0`; otherwise the final endpoints `(a, b)`. -/
def bisection_loop (y eps : ℝ) (it : ℕ) (a b fa fb : ℝ) : Option (ℝ × ℝ) :=
  if hc : it < 1000 ∧ |b - a| > eps then
    match bisection_mid a b y with
    | none => none
    | some (c, fc) =>
      if fa * fc ≤ 0 then bisection_loop y eps (it + 1) a c fa fc
      else bisection_loop y eps (it + 1) c b fc fb
  else some (a, b)
termination_by 1000 - it
decreasing_by
  all_goals
    have hit := hc.1
    omega

/-- C function `bisection` (lines 104-126).  The argument `root` is the value held
by `*root` at the call; the result is `(return value, *root afterwards)`. -/
def bisection (a b y eps root : ℝ) : ℤ × ℝ :=
  let fa := (f_value a).1 - y
  let fb := (f_value b).1 - y
  if ¬ ((f_value a).2 ≠ 0 ∧ (f_value b).2 ≠ 0) then (0, root)
  else if fa * fb > 0 then (0, root)
  else
    match bisection_loop y eps 0 a b fa fb with
    | none => (0, root)
    | some (a', b') => (1, 0.5 * (a' + b'))

/-! ## `find_x_for_y` -/

/-- The loop `for (double x = a; x <= b + 1e-12; x += h) body` shared by
`print_table` (line 68) and `min_max` (line 86) for a positive step: `body x s` is
the effect of one pass at `x` on the state `s`; the result is the final state. -/
def grid_loop {σ : Type} (b h : ℝ) (hh : 0 < h) (body : ℝ → σ → σ) (x : ℝ) (s : σ) : σ :=
  if hx : x ≤ b + 1e-12 then grid_loop b h hh body (x + h) (body x s) else s
termination_by ⌈(b + 1e-12 - x) / h + 1⌉₊
decreasing_by
  have hpos : 0 ≤ (b + 1e-12 - x) / h := div_nonneg (sub_nonneg.mpr hx) hh.le
  have hstep : (b + 1e-12 - (x + h)) / h + 1 = (b + 1e-12 - x) / h := by
    field_simp
    ring
  rw [hstep, Nat.ceil_add_one hpos]
  exact Nat.lt_succ_self _

/-- The local variables `minv, maxv, xmin, xmax, found` of `min_max`. -/
structure MinMaxState where
  /-- The running minimum `minv`. -/
  minv : ℝ
  /-- The running maximum `maxv`. -/
  maxv : ℝ
  /-- The location `xmin` of the running minimum. -/
  xmin : ℝ
  /-- The location `xmax` of the running maximum. -/
  xmax : ℝ
  /-- The flag `found`. -/
  found : ℤ

/-- One pass of the loop of `min_max` (lines 87-92) at the point `x`. -/
def min_max_body (x : ℝ) (s : MinMaxState) : MinMaxState :=
  if (f_value x).2 = 0 then s
  else
    let y := (f_value x).1
    let s1 : MinMaxState :=
      if s.found = 0 then { minv := y, maxv := y, xmin := x, xmax := x, found := 1 } else s
    let s2 : MinMaxState := if y < s1.minv then { s1 with minv := y, xmin := x } else s1
    if y > s2.maxv then { s2 with maxv := y, xmax := x } else s2

/-- What `min_max` prints, one constructor per `printf`. -/
inductive ExtremaLine where
  /-- The message "Шаг должен быть > 0." -/
  | step_error : ExtremaLine
  /-- The message "На отрезке нет точек из области определения." -/
  | no_points : ExtremaLine
  /-- The line `Минимум: f(xmin) = minv`. -/
  | minimum (xmin minv : ℝ) : ExtremaLine
  /-- The line `Максимум: f(xmax) = maxv`. -/
  | maximum (xmax maxv : ℝ) : ExtremaLine

/-- C function `min_max` (lines 78-101): the list of printed lines. -/
def min_max (a b h : ℝ) : List ExtremaLine :=
  if hh : h ≤ 0 then [ExtremaLine.step_error]
  else
    let a' := if a > b then b else a
    let b' := if a > b then a else b
    let s := grid_loop b' h (not_le.mp hh) min_max_body a'
      { minv := 1e308, maxv := -1e308, xmin := a', xmax := a', found := 0 }
    if s.found = 0 then [ExtremaLine.no_points]
    else [ExtremaLine.minimum s.xmin s.minv, ExtremaLine.maximum s.xmax s.maxv]

/-! ## Auxiliary definitions for the statements and proofs -/

/-- The point at which an iteration of `bisection` evaluates `f`: the midpoint, or
the midpoint moved by `1e-6` when `f` is undefined at the midpoint. -/
def nudged (a b : ℝ) : ℝ :=
  if |0.5 * (a + b)| < ZERO_TOL then 0.5 * (a + b) + 1e-6 else 0.5 * (a + b)

/-- The three ways a bracket can stay inside one branch of `f_value` while avoiding
the singularity. -/
def one_branch (a b : ℝ) : Prop :=
  b < -1 ∨ (-1 ≤ a ∧ b < 1 ∧ crosses_undefined a b = false) ∨ 1 ≤ a

/-- The right edge used by `find_x_for_y` for the left edge `left`:
`right = left + h; if (right > b) right = b;`. -/
def right_edge (b h left : ℝ) : ℝ := if left + h > b then b else left + h

/-- The midpoints `c = 0.5 * (a + b)` at which the loop of `bisection` evaluates `f`
first in each iteration (lines 113-115), in the order of the iterations: the loop
`bisection_loop` with the midpoints recorded instead of the final endpoints. -/
def bisection_midpoints (y eps : ℝ) (it : ℕ) (a b fa fb : ℝ) : List ℝ :=
  if hc : it < 1000 ∧ |b - a| > eps then
    match bisection_mid a b y with
    | none => [0.5 * (a + b)]
    | some (c, fc) =>
      if fa * fc ≤ 0 then 0.5 * (a + b) :: bisection_midpoints y eps (it + 1) a c fa fc
      else 0.5 * (a + b) :: bisection_midpoints y eps (it + 1) c b fc fb
  else []
termination_by 1000 - it
decreasing_by
  all_goals
    have hit := hc.1
    omega

theorem ZERO_TOL_pos : 0 < ZERO_TOL := by
  unfold ZERO_TOL
  norm_num

theorem ZERO_TOL_lt_one : ZERO_TOL < 1 := by
  unfold ZERO_TOL
  norm_num

/-- The fold of `f_value` written out as the six terms it adds up. -/
theorem f_value_series (x : ℝ) :
    (List.range 6).foldl
      (fun s n => s + (sign n : ℝ) * x ^ n / Real.sqrt ((n : ℝ) + 2)) 0
      = ∑ n in Finset.range 6, (-1 : ℝ) ^ n * x ^ n / Real.sqrt ((n : ℝ) + 2) := by
  norm_num [List.range, List.range.loop, Finset.sum_range_succ, sign]

/-- The fold of `f_deriv` written out as the five terms it adds up. -/
theorem f_deriv_series (x : ℝ) :
    (List.range' 1 5).foldl
      (fun s n => s + ((sign n * (n : ℤ) : ℤ) : ℝ) * x ^ (n - 1) / Real.sqrt ((n : ℝ) + 2)) 0
      = ∑ n in Finset.Icc (1 : ℕ) 5, (-1 : ℝ) ^ n * (n : ℝ) * x ^ (n - 1) / Real.sqrt ((n : ℝ) + 2) := by
  have hI : Finset.Icc 1 5 = ({1, 2, 3, 4, 5} : Finset ℕ) := by decide
  rw [hI]
  norm_num [List.range', sign]
  ring

theorem f_value_of_lt (x : ℝ) (hx : x < -1) : f_value x = (Real.exp (-x * x), 1) := by
  simp [f_value, hx]

theorem f_value_of_mid (x : ℝ) (h1 : -1 ≤ x) (h2 : x < 1) (h3 : ZERO_TOL ≤ |x|) :
    f_value x = (Real.log |x| / x, 1) := by
  simp [f_value, not_lt.mpr h1, h1, h2, not_lt.mpr h3]

theorem f_value_of_ge (x : ℝ) (hx : 1 ≤ x) :
    f_value x = (∑ n in Finset.range 6, (-1 : ℝ) ^ n * x ^ n / Real.sqrt ((n : ℝ) + 2), 1) := by
  have h1 : ¬ x < -1 := by linarith
  have h2 : ¬ x < 1 := by linarith
  rw [← f_value_series]
  simp [f_value, h1, h2]

theorem f_value_of_small (x : ℝ) (hx : |x| < ZERO_TOL) : f_value x = (0, 0) := by
  have h := abs_lt.mp hx
  have h0 := ZERO_TOL_lt_one
  have h1 : ¬ x < -1 := by linarith
  have h2 : -1 ≤ x := by linarith
  have h3 : x < 1 := by linarith
  simp [f_value, h1, h2, h3, hx]

theorem f_value_ok_of_large (x : ℝ) (hx : ZERO_TOL ≤ |x|) : (f_value x).2 = 1 := by
  unfold f_value
  split_ifs <;> first | rfl | (exfalso; linarith)

theorem f_deriv_ok_of_large (x : ℝ) (hx : ZERO_TOL ≤ |x|) : (f_deriv x).2 = 1 := by
  unfold f_deriv
  split_ifs <;> first | rfl | (exfalso; linarith)

theorem f_deriv_of_small (x : ℝ) (hx : |x| < ZERO_TOL) : f_deriv x = (0, 0) := by
  have h := abs_lt.mp hx
  have h0 := ZERO_TOL_lt_one
  have h1 : ¬ x < -1 := by linarith
  have h2 : -1 ≤ x := by linarith
  have h3 : x < 1 := by linarith
  simp [f_deriv, h1, h2, h3, hx]

theorem f_value_ok_eq_zero_iff (x : ℝ) : (f_value x).2 = 0 ↔ |x| < ZERO_TOL := by
  constructor
  · intro h
    by_contra hc
    rw [f_value_ok_of_large x (not_lt.mp hc)] at h
    exact one_ne_zero h
  · intro h
    rw [f_value_of_small x h]

theorem f_deriv_ok_eq_zero_iff (x : ℝ) : (f_deriv x).2 = 0 ↔ |x| < ZERO_TOL := by
  constructor
  · intro h
    by_contra hc
    rw [f_deriv_ok_of_large x (not_lt.mp hc)] at h
    exact one_ne_zero h
  · intro h
    rw [f_deriv_of_small x h]

/-! ## Derivative of the evaluator -/

theorem hasDerivAt_f_value_left (x : ℝ) (hx : x < -1) :
    HasDerivAt (fun t => (f_value t).1) (-2 * x * Real.exp (-x * x)) x := by
  have h1 : HasDerivAt (fun t : ℝ => -t * t) (-1 * x + -x * 1) x :=
    (hasDerivAt_id x).neg.mul (hasDerivAt_id x)
  have h2 : HasDerivAt (fun t : ℝ => Real.exp (-t * t)) (-2 * x * Real.exp (-x * x)) x :=
    h1.exp.congr_deriv (by ring)
  refine h2.congr_of_eventuallyEq ?_
  filter_upwards [eventually_lt_nhds hx] with t ht
  rw [f_value_of_lt t ht]

theorem hasDerivAt_f_value_mid (x : ℝ) (h1 : -1 < x) (h2 : x < 1) (h3 : ZERO_TOL < |x|) :
    HasDerivAt (fun t => (f_value t).1) ((1 - Real.log |x|) / (x * x)) x := by
  have hx0 : x ≠ 0 := by
    intro h
    rw [h, abs_zero] at h3
    linarith [ZERO_TOL_pos]
  have hd : HasDerivAt (fun t : ℝ => Real.log t / t) ((1 - Real.log |x|) / (x * x)) x := by
    refine ((Real.hasDerivAt_log hx0).div (hasDerivAt_id x) hx0).congr_deriv ?_
    rw [Real.log_abs]
    simp only [id]
    field_simp
    left
    ring
  refine hd.congr_of_eventuallyEq ?_
  filter_upwards [eventually_gt_nhds h1, eventually_lt_nhds h2,
    (continuous_abs.tendsto x).eventually (eventually_gt_nhds h3)] with t ht1 ht2 ht3
  rw [f_value_of_mid t ht1.le ht2 ht3.le, Real.log_abs]

theorem hasDerivAt_f_value_right (x : ℝ) (hx : 1 < x) :
    HasDerivAt (fun t => (f_value t).1)
      (∑ n in Finset.Icc (1 : ℕ) 5, (-1 : ℝ) ^ n * (n : ℝ) * x ^ (n - 1) / Real.sqrt ((n : ℝ) + 2))
      x := by
  have hterm : ∀ n ∈ Finset.range 6,
      HasDerivAt (fun t : ℝ => (-1 : ℝ) ^ n * t ^ n / Real.sqrt ((n : ℝ) + 2))
        ((-1 : ℝ) ^ n * ((n : ℝ) * x ^ (n - 1)) / Real.sqrt ((n : ℝ) + 2)) x :=
    fun n _ => ((hasDerivAt_pow n x).const_mul _).div_const _
  have hsum := HasDerivAt.sum hterm
  have hI : Finset.Icc 1 5 = ({1, 2, 3, 4, 5} : Finset ℕ) := by decide
  have hval : (∑ n in Finset.range 6,
        (-1 : ℝ) ^ n * ((n : ℝ) * x ^ (n - 1)) / Real.sqrt ((n : ℝ) + 2))
      = ∑ n in Finset.Icc (1 : ℕ) 5,
        (-1 : ℝ) ^ n * (n : ℝ) * x ^ (n - 1) / Real.sqrt ((n : ℝ) + 2) := by
    rw [hI]
    norm_num [Finset.sum_range_succ]
    ring
  refine (hsum.congr_deriv hval).congr_of_eventuallyEq ?_
  filter_upwards [eventually_gt_nhds hx] with t ht
  rw [f_value_of_ge t ht.le]

/-! ## The bisection loop -/

theorem nudged_defined (a b : ℝ) : ZERO_TOL ≤ |nudged a b| := by
  unfold nudged
  split_ifs with h
  · have h1 := (abs_lt.mp h).1
    have h2 : ZERO_TOL ≤ 0.5 * (a + b) + 1e-6 := by
      unfold ZERO_TOL at h1 ⊢
      norm_num at h1 ⊢
      linarith
    exact h2.trans (le_abs_self _)
  · exact not_lt.mp h

theorem bisection_mid_eq (a b y : ℝ) :
    bisection_mid a b y = some (nudged a b, (f_value (nudged a b)).1 - y) := by
  have hd := nudged_defined a b
  have hok : (f_value (nudged a b)).2 ≠ 0 := by
    rw [f_value_ok_of_large _ hd]
    exact one_ne_zero
  unfold bisection_mid
  unfold nudged at hok ⊢
  by_cases h : |0.5 * (a + b)| < ZERO_TOL
  · have h0 : (f_value (0.5 * (a + b))).2 = 0 := (f_value_ok_eq_zero_iff _).mpr h
    rw [if_pos h] at hok
    simp only [h0, if_true, h, if_neg hok]
  · have h0 : (f_value (0.5 * (a + b))).2 ≠ 0 := fun hc => h ((f_value_ok_eq_zero_iff _).mp hc)
    simp only [if_neg h0, if_neg h]

/-- Loop rule for `bisection_loop`: a property of the loop state `(it, a, b, fa, fb)`
that every iteration preserves holds of the state on exit, the loop always exits
normally, and the loop test is false on exit. -/
theorem bisection_loop_rule (y eps : ℝ) (P : ℕ → ℝ → ℝ → ℝ → ℝ → Prop)
    (hP : ∀ it a b fa fb, P it a b fa fb → it < 1000 → |b - a| > eps →
      (fa * ((f_value (nudged a b)).1 - y) ≤ 0 →
        P (it + 1) a (nudged a b) fa ((f_value (nudged a b)).1 - y)) ∧
      (¬ fa * ((f_value (nudged a b)).1 - y) ≤ 0 →
        P (it + 1) (nudged a b) b ((f_value (nudged a b)).1 - y) fb)) :
    ∀ n it a b fa fb, 1000 - it = n → P it a b fa fb →
      ∃ it' a' b' fa' fb', bisection_loop y eps it a b fa fb = some (a', b') ∧
        P it' a' b' fa' fb' ∧ ¬ (it' < 1000 ∧ |b' - a'| > eps) := by
  intro n
  induction n with
  | zero =>
    intro it a b fa fb hn h0
    have hc : ¬ (it < 1000 ∧ |b - a| > eps) := fun hc => by omega
    rw [bisection_loop, dif_neg hc]
    exact ⟨it, a, b, fa, fb, rfl, h0, hc⟩
  | succ n ih =>
    intro it a b fa fb hn h0
    by_cases hc : it < 1000 ∧ |b - a| > eps
    · rw [bisection_loop, dif_pos hc, bisection_mid_eq]
      simp only
      have hstep := hP it a b fa fb h0 hc.1 hc.2
      by_cases hs : fa * ((f_value (nudged a b)).1 - y) ≤ 0
      · rw [if_pos hs]
        exact ih (it + 1) _ _ _ _ (by omega) (hstep.1 hs)
      · rw [if_neg hs]
        exact ih (it + 1) _ _ _ _ (by omega) (hstep.2 hs)
    · rw [bisection_loop, dif_neg hc]
      exact ⟨it, a, b, fa, fb, rfl, h0, hc⟩

theorem nudged_of_free (a b lo hi : ℝ) (hfree : ∀ x, lo ≤ x → x ≤ hi → ZERO_TOL ≤ |x|)
    (h1 : lo ≤ a) (h2 : a ≤ b) (h3 : b ≤ hi) : nudged a b = 0.5 * (a + b) := by
  unfold nudged
  have hm : ZERO_TOL ≤ |0.5 * (a + b)| :=
    hfree _ (by norm_num; linarith) (by norm_num; linarith)
  rw [if_neg (not_lt.mpr hm)]

theorem sign_change_keep (u v w : ℝ) (h1 : u * v ≤ 0) (h2 : ¬ u * w ≤ 0) : w * v ≤ 0 := by
  by_contra hcon
  have h3 : 0 < (u * w) * (w * v) := mul_pos (not_le.mp h2) (not_le.mp hcon)
  have h4 : (u * w) * (w * v) = (u * v) * (w * w) := by ring
  have h5 : (u * v) * (w * w) ≤ 0 := mul_nonpos_of_nonpos_of_nonneg h1 (mul_self_nonneg w)
  linarith

/-- On a bracket `[a, b]` free of the singularity and with a sign change of
`f - y` at its ends, the loop of `bisection` exits normally after some `k ≤ 1000`
halvings with endpoints `a ≤ a' ≤ b' ≤ b` that still carry a sign change, at
distance `(b - a) / 2 ^ k`; `k` is the first index at which that distance is at
most `eps`, or `1000`. -/
theorem bisection_loop_regular (y eps a b : ℝ) (hab : a ≤ b)
    (hfree : ∀ x, a ≤ x → x ≤ b → ZERO_TOL ≤ |x|)
    (hsign : ((f_value a).1 - y) * ((f_value b).1 - y) ≤ 0) :
    ∃ k a' b', bisection_loop y eps 0 a b ((f_value a).1 - y) ((f_value b).1 - y)
        = some (a', b') ∧
      a ≤ a' ∧ a' ≤ b' ∧ b' ≤ b ∧
      ((f_value a').1 - y) * ((f_value b').1 - y) ≤ 0 ∧
      b' - a' = (b - a) / 2 ^ k ∧ k ≤ 1000 ∧
      (∀ j, j < k → eps < (b - a) / 2 ^ j) ∧
      (k = 1000 ∨ (b - a) / 2 ^ k ≤ eps) := by
  obtain ⟨k, a', b', fa', fb', hres, hP, hexit⟩ :=
    bisection_loop_rule y eps
      (fun it a' b' fa' fb' => a ≤ a' ∧ a' ≤ b' ∧ b' ≤ b ∧
        fa' = (f_value a').1 - y ∧ fb' = (f_value b').1 - y ∧ fa' * fb' ≤ 0 ∧
        b' - a' = (b - a) / 2 ^ it ∧ it ≤ 1000 ∧ ∀ j, j < it → eps < (b - a) / 2 ^ j)
      (by
        rintro it p q fp fq ⟨h1, h2, h3, h4, h5, h6, h7, h8, h9⟩ hit hw
        rw [nudged_of_free p q a b hfree h1 h2 h3]
        have hw' : eps < (b - a) / 2 ^ it := by
          rw [abs_of_nonneg (by linarith)] at hw
          rw [← h7]
          exact hw
        have hlt : ∀ j, j < it + 1 → eps < (b - a) / 2 ^ j := by
          intro j hj
          rcases Nat.lt_succ_iff_lt_or_eq.mp hj with hj' | hj'
          · exact h9 j hj'
          · rw [hj']
            exact hw'
        have hpow : (b - a) / 2 ^ (it + 1) = (b - a) / 2 ^ it / 2 := by
          rw [pow_succ]
          field_simp
        refine ⟨fun hs => ⟨h1, by norm_num; linarith, by norm_num; linarith, h4, rfl, hs,
          ?_, hit, hlt⟩, fun hs => ⟨by norm_num; linarith, by norm_num; linarith, h3, rfl,
          h5, ?_, ?_, hit, hlt⟩⟩
        · rw [hpow, ← h7]
          ring
        · exact sign_change_keep fp fq _ h6 hs
        · rw [hpow, ← h7]
          ring)
      1000 0 a b _ _ rfl
      ⟨le_rfl, hab, le_rfl, rfl, rfl, hsign, by simp, by norm_num, fun j hj => by omega⟩
  obtain ⟨h1, h2, h3, h4, h5, h6, h7, h8, h9⟩ := hP
  refine ⟨k, a', b', hres, h1, h2, h3, ?_, h7, h8, h9, ?_⟩
  · rw [← h4, ← h5]
    exact h6
  · by_cases hk : k < 1000
    · right
      have hw : ¬ |b' - a'| > eps := fun hw => hexit ⟨hk, hw⟩
      rw [abs_of_nonneg (by linarith)] at hw
      rw [← h7]
      exact not_lt.mp hw
    · left
      omega

theorem series_expand (x : ℝ) :
    (∑ n in Finset.range 6, (-1 : ℝ) ^ n * x ^ n / Real.sqrt ((n : ℝ) + 2))
      = 1 / Real.sqrt 2 - x / Real.sqrt 3 + x ^ 2 / Real.sqrt 4 - x ^ 3 / Real.sqrt 5
        + x ^ 4 / Real.sqrt 6 - x ^ 5 / Real.sqrt 7 := by
  norm_num [Finset.sum_range_succ]
  ring

theorem bisection_of_same_sign (a b y eps root : ℝ)
    (h : ((f_value a).1 - y) * ((f_value b).1 - y) > 0) :
    bisection a b y eps root = (0, root) := by
  unfold bisection
  simp only [if_pos h, ite_self]

/-! ## Brackets that avoid the singularity -/

theorem crosses_undefined_eq_false_iff (a b : ℝ) :
    crosses_undefined a b = false ↔
      ¬ ((a < 0 ∧ b > 0) ∨ |a| < ZERO_TOL ∨ |b| < ZERO_TOL) := by
  unfold crosses_undefined
  simp only [decide_eq_false_iff_not]

/-- An interval that `crosses_undefined` does not flag lies on one side of the
singularity, at distance at least `ZERO_TOL`. -/
theorem side_of_not_crosses (a b : ℝ) (hab : a ≤ b) (hc : crosses_undefined a b = false) :
    b ≤ -ZERO_TOL ∨ ZERO_TOL ≤ a := by
  rw [crosses_undefined_eq_false_iff] at hc
  push_neg at hc
  obtain ⟨h1, h2, h3⟩ := hc
  have hz := ZERO_TOL_pos
  rcases lt_or_le a 0 with ha | ha
  · left
    have hb : b ≤ 0 := h1 ha
    rw [abs_of_nonpos hb] at h3
    linarith
  · right
    rw [abs_of_nonneg ha] at h2
    exact h2

theorem free_of_side (a b : ℝ) (hs : b ≤ -ZERO_TOL ∨ ZERO_TOL ≤ a) :
    ∀ x, a ≤ x → x ≤ b → ZERO_TOL ≤ |x| := by
  intro x h1 h2
  have hz := ZERO_TOL_pos
  rcases hs with hs | hs
  · rw [abs_of_nonpos (by linarith)]
    linarith
  · rw [abs_of_nonneg (by linarith)]
    linarith

theorem free_of_not_crosses (a b : ℝ) (hab : a ≤ b) (hc : crosses_undefined a b = false) :
    ∀ x, a ≤ x → x ≤ b → ZERO_TOL ≤ |x| :=
  free_of_side a b (side_of_not_crosses a b hab hc)

/-! ## Continuity of `f_value` inside a branch -/

theorem continuousOn_f_value_left (a b : ℝ) (hb : b < -1) :
    ContinuousOn (fun t => (f_value t).1) (Set.Icc a b) := by
  have hc : Continuous (fun t : ℝ => Real.exp (-t * t)) := by fun_prop
  refine hc.continuousOn.congr ?_
  intro t ht
  simp only [f_value_of_lt t (lt_of_le_of_lt ht.2 hb)]

theorem continuousOn_f_value_mid (a b : ℝ) (ha : -1 ≤ a) (hb : b < 1)
    (hfree : ∀ x, a ≤ x → x ≤ b → ZERO_TOL ≤ |x|) :
    ContinuousOn (fun t => (f_value t).1) (Set.Icc a b) := by
  have hc : ContinuousOn (fun t : ℝ => Real.log t / t) {t | t ≠ 0} :=
    Real.continuousOn_log.div continuousOn_id (fun t ht => ht)
  have hsub : Set.Icc a b ⊆ {t : ℝ | t ≠ 0} := by
    intro t ht h0
    have h := hfree t ht.1 ht.2
    rw [h0, abs_zero] at h
    linarith [ZERO_TOL_pos]
  refine (hc.mono hsub).congr ?_
  intro t ht
  simp only [f_value_of_mid t (ha.trans ht.1) (lt_of_le_of_lt ht.2 hb) (hfree t ht.1 ht.2),
    Real.log_abs]

theorem continuousOn_f_value_right (a b : ℝ) (ha : 1 ≤ a) :
    ContinuousOn (fun t => (f_value t).1) (Set.Icc a b) := by
  have hc : Continuous (fun t : ℝ =>
      ∑ n in Finset.range 6, (-1 : ℝ) ^ n * t ^ n / Real.sqrt ((n : ℝ) + 2)) := by
    fun_prop
  refine hc.continuousOn.congr ?_
  intro t ht
  simp only [f_value_of_ge t (ha.trans ht.1)]

theorem one_branch_free (a b : ℝ) (hab : a ≤ b) (h : one_branch a b) :
    ∀ x, a ≤ x → x ≤ b → ZERO_TOL ≤ |x| := by
  have hz := ZERO_TOL_lt_one
  rcases h with h | ⟨_, _, h⟩ | h
  · exact free_of_side a b (Or.inl (by linarith))
  · exact free_of_not_crosses a b hab h
  · exact free_of_side a b (Or.inr (by linarith))

theorem one_branch_continuousOn (a b : ℝ) (hab : a ≤ b) (h : one_branch a b) :
    ContinuousOn (fun t => (f_value t).1) (Set.Icc a b) := by
  rcases h with h | ⟨h1, h2, h3⟩ | h
  · exact continuousOn_f_value_left a b h
  · exact continuousOn_f_value_mid a b h1 h2 (free_of_not_crosses a b hab h3)
  · exact continuousOn_f_value_right a b h

/-- Intermediate value theorem for the residual `f - y` on a sub-bracket. -/
theorem exists_root_of_sign_change (a b y : ℝ) (hab : a ≤ b)
    (hcont : ContinuousOn (fun t => (f_value t).1) (Set.Icc a b))
    (hsign : ((f_value a).1 - y) * ((f_value b).1 - y) ≤ 0) :
    ∃ x, a ≤ x ∧ x ≤ b ∧ (f_value x).1 = y := by
  by_cases ha : (f_value a).1 = y
  · exact ⟨a, le_rfl, hab, ha⟩
  rcases lt_or_gt_of_ne ha with h1 | h1
  · have h2 : y ≤ (f_value b).1 := by
      by_contra hcon
      have := mul_pos_of_neg_of_neg (by linarith : (f_value a).1 - y < 0)
        (by linarith [not_le.mp hcon] : (f_value b).1 - y < 0)
      linarith
    obtain ⟨x, hx, hfx⟩ := intermediate_value_Icc hab hcont ⟨h1.le, h2⟩
    exact ⟨x, hx.1, hx.2, hfx⟩
  · have h2 : (f_value b).1 ≤ y := by
      by_contra hcon
      have := mul_pos (by linarith : 0 < (f_value a).1 - y)
        (by linarith [not_le.mp hcon] : 0 < (f_value b).1 - y)
      linarith
    obtain ⟨x, hx, hfx⟩ := intermediate_value_Icc' hab hcont ⟨h2, h1.le⟩
    exact ⟨x, hx.1, hx.2, hfx⟩

/-! ## `bisection` on a bracket that avoids the singularity -/

/-- On a bracket free of the singularity with a sign change at its ends,
`bisection` succeeds and returns the midpoint of the final endpoints described by
`bisection_loop_regular`. -/
theorem bisection_regular (y eps a b root : ℝ) (hab : a ≤ b)
    (hfree : ∀ x, a ≤ x → x ≤ b → ZERO_TOL ≤ |x|)
    (hsign : ((f_value a).1 - y) * ((f_value b).1 - y) ≤ 0) :
    ∃ k a' b', bisection a b y eps root = (1, 0.5 * (a' + b')) ∧
      a ≤ a' ∧ a' ≤ b' ∧ b' ≤ b ∧
      ((f_value a').1 - y) * ((f_value b').1 - y) ≤ 0 ∧
      b' - a' = (b - a) / 2 ^ k ∧ k ≤ 1000 ∧
      (∀ j, j < k → eps < (b - a) / 2 ^ j) ∧
      (k = 1000 ∨ (b - a) / 2 ^ k ≤ eps) := by
  obtain ⟨k, a', b', hloop, hrest⟩ := bisection_loop_regular y eps a b hab hfree hsign
  refine ⟨k, a', b', ?_, hrest⟩
  have ha : (f_value a).2 ≠ 0 := by
    rw [f_value_ok_of_large a (hfree a le_rfl hab)]
    exact one_ne_zero
  have hb : (f_value b).2 ≠ 0 := by
    rw [f_value_ok_of_large b (hfree b hab le_rfl)]
    exact one_ne_zero
  unfold bisection
  simp only [hloop, if_neg (not_not.mpr (And.intro ha hb)), if_neg (not_lt.mpr hsign)]

/-- On a bracket inside one branch, with a sign change at its ends and
`b - a ≤ 2^1000 * eps`, `bisection` succeeds and its result is within `eps / 2` of
a solution of `f x = y` in the bracket. -/
theorem bisection_one_branch (a b y eps root : ℝ) (hab : a < b)
    (hcap : b - a ≤ 2 ^ 1000 * eps) (hbr : one_branch a b)
    (hsign : ((f_value a).1 - y) * ((f_value b).1 - y) ≤ 0) :
    ∃ r x, bisection a b y eps root = (1, r) ∧ a ≤ r ∧ r ≤ b ∧ a ≤ x ∧ x ≤ b ∧
      (f_value x).1 = y ∧ |r - x| ≤ eps / 2 := by
  obtain ⟨k, a', b', hres, h1, h2, h3, h4, h5, h6, _, h8⟩ :=
    bisection_regular y eps a b root hab.le (one_branch_free a b hab.le hbr) hsign
  have hcont : ContinuousOn (fun t => (f_value t).1) (Set.Icc a' b') :=
    (one_branch_continuousOn a b hab.le hbr).mono (Set.Icc_subset_Icc h1 h3)
  obtain ⟨x, hx1, hx2, hx3⟩ := exists_root_of_sign_change a' b' y h2 hcont h4
  have hw : b' - a' ≤ eps := by
    rw [h5]
    rcases h8 with h8 | h8
    · rw [h8, div_le_iff₀ (by positivity)]
      linarith
    · exact h8
  refine ⟨0.5 * (a' + b'), x, hres, by norm_num; linarith, by norm_num; linarith,
    h1.trans hx1, hx2.trans h3, hx3, ?_⟩
  rw [abs_le]
  constructor
  · norm_num
    linarith
  · norm_num
    linarith

/-! ## Values of the middle branch on either side of the singularity -/

theorem f_value_mid_neg_ge_one (x : ℝ) (h1 : -(1 / 2) ≤ x) (h2 : x ≤ -ZERO_TOL) :
    1 ≤ (f_value x).1 := by
  have hz := ZERO_TOL_pos
  have hx : x < 0 := by linarith
  have habs : |x| = -x := abs_of_neg hx
  rw [f_value_of_mid x (by linarith) (by linarith) (by rw [habs]; linarith), habs]
  simp only
  rw [le_div_iff_of_neg hx]
  have hlog := Real.log_le_sub_one_of_pos (by linarith : 0 < -x)
  linarith

theorem f_value_mid_pos_lt_zero (x : ℝ) (h1 : ZERO_TOL ≤ x) (h2 : x < 1) :
    (f_value x).1 < 0 := by
  have hz := ZERO_TOL_pos
  have hx : 0 < x := by linarith
  have habs : |x| = x := abs_of_pos hx
  rw [f_value_of_mid x (by linarith) h2 (by rw [habs]; exact h1), habs]
  exact div_neg_of_neg_of_pos (Real.log_neg hx h2) hx

theorem bisection_loop_exit (y eps : ℝ) (it : ℕ) (a b fa fb : ℝ)
    (h : ¬ (it < 1000 ∧ |b - a| > eps)) :
    bisection_loop y eps it a b fa fb = some (a, b) := by
  rw [bisection_loop, dif_neg h]

theorem bisection_loop_step (y eps : ℝ) (it : ℕ) (a b fa fb : ℝ)
    (h : it < 1000 ∧ |b - a| > eps) :
    bisection_loop y eps it a b fa fb =
      if fa * ((f_value (nudged a b)).1 - y) ≤ 0 then
        bisection_loop y eps (it + 1) a (nudged a b) fa ((f_value (nudged a b)).1 - y)
      else bisection_loop y eps (it + 1) (nudged a b) b ((f_value (nudged a b)).1 - y) fb := by
  rw [bisection_loop, dif_pos h, bisection_mid_eq]

theorem not_crosses_of_pos (a b : ℝ) (ha : ZERO_TOL ≤ a) (hab : a ≤ b) :
    crosses_undefined a b = false := by
  have hz := ZERO_TOL_pos
  rw [crosses_undefined_eq_false_iff, abs_of_nonneg (by linarith), abs_of_nonneg (by linarith)]
  push_neg
  exact ⟨fun h => by linarith, ha, by linarith⟩

theorem f_value_zero_undefined : (f_value 0).2 = 0 := by
  rw [f_value_ok_eq_zero_iff, abs_zero]
  exact ZERO_TOL_pos

/-! ## The first branch: bounds and a Lipschitz estimate -/

theorem exp_two_le_pow (n : ℕ) : (2 : ℝ) ^ n ≤ Real.exp n := by
  have h1 : (2 : ℝ) ≤ Real.exp 1 := by
    have := Real.add_one_le_exp (1 : ℝ)
    linarith
  calc (2 : ℝ) ^ n ≤ Real.exp 1 ^ n := pow_le_pow_left₀ (by norm_num) h1 n
    _ = Real.exp n := by rw [← Real.exp_nat_mul, mul_one]

theorem exp_le_three_pow (n : ℕ) : Real.exp n ≤ (3 : ℝ) ^ n := by
  have h1 : Real.exp 1 ≤ 3 := by
    have := Real.exp_one_lt_d9
    linarith
  calc Real.exp n = Real.exp 1 ^ n := by rw [← Real.exp_nat_mul, mul_one]
    _ ≤ (3 : ℝ) ^ n := pow_le_pow_left₀ (Real.exp_pos 1).le h1 n

/-- For `v ≤ u ≤ 0` the exponential grows by at most `u - v`. -/
theorem exp_sub_le_of_nonpos (u v : ℝ) (hvu : v ≤ u) (hu : u ≤ 0) :
    Real.exp u - Real.exp v ≤ u - v := by
  have h1 : Real.exp u ≤ 1 := Real.exp_le_one_iff.mpr hu
  have h2 : v - u + 1 ≤ Real.exp (v - u) := Real.add_one_le_exp _
  have h3 : Real.exp v = Real.exp u * Real.exp (v - u) := by
    rw [← Real.exp_add]
    congr 1
    ring
  have h4 : 0 < Real.exp u := Real.exp_pos u
  rw [h3]
  nlinarith

theorem abs_exp_sub_le_of_nonpos (u v : ℝ) (hu : u ≤ 0) (hv : v ≤ 0) :
    |Real.exp u - Real.exp v| ≤ |u - v| := by
  rcases le_total v u with h | h
  · rw [abs_of_nonneg (sub_nonneg.mpr (Real.exp_le_exp.mpr h)), abs_of_nonneg (sub_nonneg.mpr h)]
    exact exp_sub_le_of_nonpos u v h hu
  · rw [abs_sub_comm, abs_sub_comm u v, abs_of_nonneg (sub_nonneg.mpr (Real.exp_le_exp.mpr h)),
      abs_of_nonneg (sub_nonneg.mpr h)]
    exact exp_sub_le_of_nonpos v u h hv

/-- On `[-2, -1)` the first branch changes by at most four times the distance. -/
theorem f_value_left_lipschitz (r x : ℝ) (hr1 : -2 ≤ r) (hr2 : r < -1) (hx1 : -2 ≤ x)
    (hx2 : x < -1) : |(f_value r).1 - (f_value x).1| ≤ 4 * |r - x| := by
  rw [f_value_of_lt r hr2, f_value_of_lt x hx2]
  simp only
  refine (abs_exp_sub_le_of_nonpos _ _ (by nlinarith) (by nlinarith)).trans ?_
  have h : -r * r - -x * x = (r - x) * (-(r + x)) := by ring
  rw [h, abs_mul, mul_comm]
  refine mul_le_mul_of_nonneg_right ?_ (abs_nonneg _)
  rw [abs_le]
  constructor <;> linarith

theorem f_value_left_inv (x : ℝ) (hx : x < -1) : (f_value x).1 = (Real.exp (x * x))⁻¹ := by
  rw [f_value_of_lt x hx, ← Real.exp_neg]
  simp only
  congr 1
  ring

theorem f_value_neg_two_le : (f_value (-2)).1 ≤ 1 / 16 := by
  rw [f_value_left_inv (-2) (by norm_num)]
  have h := exp_two_le_pow 4
  have h4 : ((4 : ℕ) : ℝ) = (-2 : ℝ) * -2 := by norm_num
  rw [h4] at h
  rw [one_div]
  exact inv_anti₀ (by norm_num) (by linarith)

theorem f_value_neg_one : (f_value (-1)).1 = 0 := by
  rw [f_value_of_mid (-1) le_rfl (by norm_num) (by unfold ZERO_TOL; norm_num)]
  simp

theorem bisection_half_fails (eps root : ℝ) :
    bisection (-2) (-1) (1 / 2) eps root = (0, root) := by
  refine bisection_of_same_sign _ _ _ _ _ (mul_pos_of_neg_of_neg ?_ ?_)
  · linarith [f_value_neg_two_le]
  · rw [f_value_neg_one]
    norm_num

theorem f_value_neg_eleven_tenths_ge : 1 / 9 ≤ (f_value (-(11 / 10))).1 := by
  rw [f_value_left_inv _ (by norm_num)]
  have h : Real.exp ((2 : ℕ) : ℝ) ≤ 9 := (exp_le_three_pow 2).trans (by norm_num)
  have h2 : Real.exp (-(11 / 10) * -(11 / 10)) ≤ Real.exp ((2 : ℕ) : ℝ) :=
    Real.exp_le_exp.mpr (by norm_num)
  rw [one_div]
  exact inv_anti₀ (Real.exp_pos _) (h2.trans h)

/-! ## Where the result of `bisection` can lie -/

/-- What a successful call of `bisection` went through: both ends defined, no equal
signs, and the loop ended normally at endpoints whose midpoint is the result. -/
theorem bisection_success_inv (a b y eps root r : ℝ)
    (h : bisection a b y eps root = (1, r)) :
    (f_value a).2 ≠ 0 ∧ (f_value b).2 ≠ 0 ∧
    ((f_value a).1 - y) * ((f_value b).1 - y) ≤ 0 ∧
    ∃ a' b', bisection_loop y eps 0 a b ((f_value a).1 - y) ((f_value b).1 - y)
        = some (a', b') ∧ r = 0.5 * (a' + b') := by
  unfold bisection at h
  simp only at h
  by_cases h1 : (f_value a).2 ≠ 0 ∧ (f_value b).2 ≠ 0
  · rw [if_neg (not_not.mpr h1)] at h
    by_cases h2 : ((f_value a).1 - y) * ((f_value b).1 - y) > 0
    · rw [if_pos h2] at h
      simp at h
    · rw [if_neg h2] at h
      refine ⟨h1.1, h1.2, not_lt.mp h2, ?_⟩
      cases hl : bisection_loop y eps 0 a b ((f_value a).1 - y) ((f_value b).1 - y) with
      | none =>
        rw [hl] at h
        simp at h
      | some p =>
        rw [hl] at h
        simp only [Prod.mk.injEq, true_and] at h
        exact ⟨p.1, p.2, rfl, h.symm⟩
  · rw [if_pos h1] at h
    simp at h

theorem nudged_bounds (p q lo hi : ℝ) (hp : lo ≤ p) (hp' : p ≤ hi) (hq : lo ≤ q)
    (hq' : q ≤ hi) (hhi : 1e-6 + ZERO_TOL ≤ hi) : lo ≤ nudged p q ∧ nudged p q ≤ hi := by
  unfold nudged
  split_ifs with h
  · have h1 := (abs_lt.mp h).2
    constructor
    · norm_num
      linarith
    · linarith
  · constructor
    · norm_num
      linarith
    · norm_num
      linarith

/-- Both endpoints of the loop of `bisection` stay between the initial left end and
the larger of the initial right end and `1e-6 + ZERO_TOL`. -/
theorem bisection_loop_bounds (y eps a b fa fb a' b' : ℝ) (hab : a ≤ b)
    (h : bisection_loop y eps 0 a b fa fb = some (a', b')) :
    a ≤ a' ∧ a' ≤ max b (1e-6 + ZERO_TOL) ∧ a ≤ b' ∧ b' ≤ max b (1e-6 + ZERO_TOL) := by
  obtain ⟨_, p, q, _, _, hres, hP, _⟩ :=
    bisection_loop_rule y eps
      (fun _ p q _ _ => a ≤ p ∧ p ≤ max b (1e-6 + ZERO_TOL) ∧ a ≤ q ∧
        q ≤ max b (1e-6 + ZERO_TOL))
      (by
        rintro it p q fp fq ⟨h1, h2, h3, h4⟩ _ _
        have hn := nudged_bounds p q a (max b (1e-6 + ZERO_TOL)) h1 h2 h3 h4 (le_max_right _ _)
        exact ⟨fun _ => ⟨h1, h2, hn.1, hn.2⟩, fun _ => ⟨hn.1, hn.2, h3, h4⟩⟩)
      1000 0 a b fa fb rfl ⟨le_rfl, hab.trans (le_max_left _ _), hab, le_max_left _ _⟩
  rw [hres] at h
  simp only [Option.some.injEq, Prod.mk.injEq] at h
  rw [← h.1, ← h.2]
  exact hP

/-! ## A nudged midpoint that leaves the bracket -/

theorem f_value_small_pos_lt (x : ℝ) (n : ℕ) (c : ℝ) (hx : 0 < x) (hx1 : x < 1)
    (hz : ZERO_TOL ≤ x) (hn : (3 : ℝ) ^ n * x < 1) (hc : c * x = -(n : ℝ)) :
    (f_value x).1 < c := by
  rw [f_value_of_mid x (by linarith) hx1 (by rw [abs_of_pos hx]; exact hz), abs_of_pos hx]
  simp only
  rw [div_lt_iff₀ hx, hc]
  have h3 : Real.exp n * x < 1 :=
    lt_of_le_of_lt (mul_le_mul_of_nonneg_right (exp_le_three_pow n) hx.le) hn
  have h4 : Real.log (Real.exp n * x) < 0 := Real.log_neg (by positivity) h3
  rw [Real.log_mul (Real.exp_pos _).ne' hx.ne', Real.log_exp] at h4
  linarith

theorem f_value_small_pos_gt (x : ℝ) (n : ℕ) (c : ℝ) (hx : 0 < x) (hx1 : x < 1)
    (hz : ZERO_TOL ≤ x) (hn : 1 < (2 : ℝ) ^ n * x) (hc : c * x = -(n : ℝ)) :
    c < (f_value x).1 := by
  rw [f_value_of_mid x (by linarith) hx1 (by rw [abs_of_pos hx]; exact hz), abs_of_pos hx]
  simp only
  rw [lt_div_iff₀ hx, hc]
  have h3 : 1 < Real.exp n * x :=
    lt_of_lt_of_le hn (mul_le_mul_of_nonneg_right (exp_two_le_pow n) hx.le)
  have h4 : 0 < Real.log (Real.exp n * x) := Real.log_pos h3
  rw [Real.log_mul (Real.exp_pos _).ne' hx.ne', Real.log_exp] at h4
  linarith

/-- On `[-5e-7, 5e-7]` with `y = -2e7` and `eps = 6e-7`: the first midpoint `0` is
nudged to `1e-6`, which becomes the left end, and the loop stops there. -/
theorem bisection_small_bracket :
    bisection (-(1 / 2000000)) (1 / 2000000) (-20000000) (3 / 5000000) 0
      = (1, 3 / 4000000) := by
  have hz : ZERO_TOL = 1e-12 := rfl
  have hfa : 1 ≤ (f_value (-(1 / 2000000))).1 :=
    f_value_mid_neg_ge_one _ (by norm_num) (by rw [hz]; norm_num)
  have hfb : (f_value (1 / 2000000)).1 < -20000000 :=
    f_value_small_pos_lt _ 10 _ (by norm_num) (by norm_num) (by rw [hz]; norm_num)
      (by norm_num) (by norm_num)
  have hfc : -20000000 < (f_value (1 / 1000000)).1 :=
    f_value_small_pos_gt _ 20 _ (by norm_num) (by norm_num) (by rw [hz]; norm_num)
      (by norm_num) (by norm_num)
  have hoka : (f_value (-(1 / 2000000))).2 = 1 :=
    f_value_ok_of_large _ (by rw [abs_of_neg (by norm_num), hz]; norm_num)
  have hokb : (f_value (1 / 2000000)).2 = 1 :=
    f_value_ok_of_large _ (by rw [abs_of_pos (by norm_num), hz]; norm_num)
  have hsign : ¬ ((f_value (-(1 / 2000000))).1 - -20000000)
      * ((f_value (1 / 2000000)).1 - -20000000) > 0 :=
    not_lt.mpr (mul_nonpos_of_nonneg_of_nonpos (by linarith) (by linarith))
  have hn : nudged (-(1 / 2000000)) (1 / 2000000) = 1 / 1000000 := by
    unfold nudged
    rw [if_pos (by rw [hz]; norm_num)]
    norm_num
  have hstep : ¬ ((f_value (-(1 / 2000000))).1 - -20000000)
      * ((f_value (1 / 1000000)).1 - -20000000) ≤ 0 :=
    not_le.mpr (mul_pos (by linarith) (by linarith))
  unfold bisection
  simp only [hoka, hokb, if_neg hsign]
  rw [bisection_loop_step _ _ _ _ _ _ _
      ⟨by norm_num, by rw [abs_of_pos (by norm_num)]; norm_num⟩, hn, if_neg hstep,
    bisection_loop_exit _ _ _ _ _ _ _ (by
      rw [abs_of_neg (by norm_num)]
      norm_num)]
  norm_num

/-! ## The root sweep -/

theorem right_edge_gt (b h left : ℝ) (hh : 0 < h) (hlt : left < b) :
    left < right_edge b h left := by
  unfold right_edge
  split_ifs <;> linarith

theorem right_edge_eq_min (b h left : ℝ) : right_edge b h left = min (left + h) b := by
  unfold right_edge
  split_ifs with hc
  · exact (min_eq_right hc.le).symm
  · exact (min_eq_left (not_lt.mp hc)).symm

theorem f_value_one_pos : 0 < (f_value 1).1 := by
  rw [f_value_of_ge 1 le_rfl, series_expand]
  have h23 : 1 / Real.sqrt 3 < 1 / Real.sqrt 2 :=
    one_div_lt_one_div_of_lt (Real.sqrt_pos.mpr (by norm_num))
      (Real.sqrt_lt_sqrt (by norm_num) (by norm_num))
  have h45 : 1 / Real.sqrt 5 < 1 / Real.sqrt 4 :=
    one_div_lt_one_div_of_lt (Real.sqrt_pos.mpr (by norm_num))
      (Real.sqrt_lt_sqrt (by norm_num) (by norm_num))
  have h67 : 1 / Real.sqrt 7 < 1 / Real.sqrt 6 :=
    one_div_lt_one_div_of_lt (Real.sqrt_pos.mpr (by norm_num))
      (Real.sqrt_lt_sqrt (by norm_num) (by norm_num))
  norm_num at h23 h45 h67 ⊢
  linarith

/-- Bounds on `1 / sqrt c` from bounds on squares. -/
theorem one_div_sqrt_bounds (c lo hi : ℝ) (hc : 0 < c) (hlo : 0 < lo) (hhi : 0 < hi)
    (h1 : lo ^ 2 * c < 1) (h2 : 1 < hi ^ 2 * c) :
    lo < 1 / Real.sqrt c ∧ 1 / Real.sqrt c < hi := by
  have hs : 0 < Real.sqrt c := Real.sqrt_pos.mpr hc
  have hsq : Real.sqrt c ^ 2 = c := Real.sq_sqrt hc.le
  constructor
  · rw [lt_div_iff₀ hs]
    by_contra hcon
    have h3 : 1 ≤ lo * Real.sqrt c := not_lt.mp hcon
    have h4 : 1 ≤ (lo * Real.sqrt c) ^ 2 := one_le_pow₀ h3
    rw [mul_pow, hsq] at h4
    linarith
  · rw [div_lt_iff₀ hs]
    by_contra hcon
    have h3 : hi * Real.sqrt c ≤ 1 := not_lt.mp hcon
    have h4 : (hi * Real.sqrt c) ^ 2 ≤ 1 := pow_le_one₀ (by positivity) h3
    rw [mul_pow, hsq] at h4
    linarith

/-- The value of the third branch at `x = 1` lies between `0.212822` and `0.212831`. -/
theorem f_value_one_bounds :
    (212822 / 1000000 : ℝ) < (f_value 1).1 ∧ (f_value 1).1 < 212831 / 1000000 := by
  rw [f_value_of_ge 1 le_rfl, series_expand]
  have b2 := one_div_sqrt_bounds 2 (707106 / 1000000) (707107 / 1000000) (by norm_num)
    (by norm_num) (by norm_num) (by norm_num) (by norm_num)
  have b3 := one_div_sqrt_bounds 3 (577350 / 1000000) (577351 / 1000000) (by norm_num)
    (by norm_num) (by norm_num) (by norm_num) (by norm_num)
  have b4 := one_div_sqrt_bounds 4 (499999 / 1000000) (500001 / 1000000) (by norm_num)
    (by norm_num) (by norm_num) (by norm_num) (by norm_num)
  have b5 := one_div_sqrt_bounds 5 (447213 / 1000000) (447214 / 1000000) (by norm_num)
    (by norm_num) (by norm_num) (by norm_num) (by norm_num)
  have b6 := one_div_sqrt_bounds 6 (408248 / 1000000) (408249 / 1000000) (by norm_num)
    (by norm_num) (by norm_num) (by norm_num) (by norm_num)
  have b7 := one_div_sqrt_bounds 7 (377964 / 1000000) (377965 / 1000000) (by norm_num)
    (by norm_num) (by norm_num) (by norm_num) (by norm_num)
  simp only [one_pow]
  constructor
  · linarith [b2.1, b3.2, b4.1, b5.2, b6.1, b7.2]
  · linarith [b2.2, b3.1, b4.2, b5.1, b6.2, b7.1]

/-! ## Midpoints evaluated by `bisection` -/

/-- On a bracket free of the singularity every midpoint evaluated by the loop of
`bisection` is at distance at least `ZERO_TOL` from `0`. -/
theorem bisection_midpoints_free (y eps lo hi : ℝ)
    (hfree : ∀ x, lo ≤ x → x ≤ hi → ZERO_TOL ≤ |x|) :
    ∀ n it p q fp fq, 1000 - it = n → lo ≤ p → p ≤ q → q ≤ hi →
      ∀ c ∈ bisection_midpoints y eps it p q fp fq, ZERO_TOL ≤ |c| := by
  intro n
  induction n with
  | zero =>
    intro it p q fp fq hn _ _ _ c hc
    have hcond : ¬ (it < 1000 ∧ |q - p| > eps) := fun h => by omega
    rw [bisection_midpoints, dif_neg hcond] at hc
    exact absurd hc (List.not_mem_nil c)
  | succ n ih =>
    intro it p q fp fq hn h1 h2 h3 c hc
    by_cases hcond : it < 1000 ∧ |q - p| > eps
    · have hm : ZERO_TOL ≤ |0.5 * (p + q)| :=
        hfree _ (by norm_num; linarith) (by norm_num; linarith)
      rw [bisection_midpoints, dif_pos hcond, bisection_mid_eq,
        nudged_of_free p q lo hi hfree h1 h2 h3] at hc
      simp only at hc
      split_ifs at hc
      · rcases List.mem_cons.mp hc with hc | hc
        · rw [hc]
          exact hm
        · exact ih (it + 1) _ _ _ _ (by omega) h1 (by norm_num; linarith)
            (by norm_num; linarith) c hc
      · rcases List.mem_cons.mp hc with hc | hc
        · rw [hc]
          exact hm
        · exact ih (it + 1) _ _ _ _ (by omega) (by norm_num; linarith)
            (by norm_num; linarith) h3 c hc
    · rw [bisection_midpoints, dif_neg hcond] at hc
      exact absurd hc (List.not_mem_nil c)

/-! ## The grid of the root sweep -/

theorem grid_loop_done {σ : Type} (b h : ℝ) (hh : 0 < h) (body : ℝ → σ → σ) (x : ℝ) (s : σ)
    (hx : ¬ x ≤ b + 1e-12) : grid_loop b h hh body x s = s := by
  rw [grid_loop, dif_neg hx]

theorem grid_loop_step {σ : Type} (b h : ℝ) (hh : 0 < h) (body : ℝ → σ → σ) (x : ℝ) (s : σ)
    (hx : x ≤ b + 1e-12) :
    grid_loop b h hh body x s = grid_loop b h hh body (x + h) (body x s) := by
  rw [grid_loop, dif_pos hx]

theorem min_max_swap (a b : ℝ) :
    (if a > b then b else a) = min a b ∧ (if a > b then a else b) = max a b := by
  constructor
  · split_ifs with hc
    · exact (min_eq_right hc.le).symm
    · exact (min_eq_left (not_lt.mp hc)).symm
  · split_ifs with hc
    · exact (max_eq_left hc.le).symm
    · exact (max_eq_right (not_lt.mp hc)).symm

theorem min_max_body_undefined (x : ℝ) (s : MinMaxState) (hok : (f_value x).2 = 0) :
    min_max_body x s = s := by
  unfold min_max_body
  rw [if_pos hok]

theorem min_max_body_first (x : ℝ) (s : MinMaxState) (hok : (f_value x).2 ≠ 0)
    (hf : s.found = 0) :
    min_max_body x s =
      { minv := (f_value x).1, maxv := (f_value x).1, xmin := x, xmax := x, found := 1 } := by
  unfold min_max_body
  simp [hok, hf]

theorem min_max_body_next (x : ℝ) (s : MinMaxState) (hok : (f_value x).2 ≠ 0)
    (hf : s.found ≠ 0) :
    min_max_body x s =
      { minv := if (f_value x).1 < s.minv then (f_value x).1 else s.minv,
        maxv := if (f_value x).1 > s.maxv then (f_value x).1 else s.maxv,
        xmin := if (f_value x).1 < s.minv then x else s.xmin,
        xmax := if (f_value x).1 > s.maxv then x else s.xmax,
        found := s.found } := by
  unfold min_max_body
  simp only [if_neg hok, if_neg hf]
  split_ifs <;> rfl

/-- The output of `min_max` for a positive step in terms of the final loop state. -/
theorem min_max_eq (a b h : ℝ) (hh : 0 < h) :
    min_max a b h =
      if (grid_loop (max a b) h hh min_max_body (min a b)
          { minv := 1e308, maxv := -1e308, xmin := min a b, xmax := min a b,
            found := 0 }).found = 0 then [ExtremaLine.no_points]
      else
        [ExtremaLine.minimum
          (grid_loop (max a b) h hh min_max_body (min a b)
            { minv := 1e308, maxv := -1e308, xmin := min a b, xmax := min a b,
              found := 0 }).xmin
          (grid_loop (max a b) h hh min_max_body (min a b)
            { minv := 1e308, maxv := -1e308, xmin := min a b, xmax := min a b,
              found := 0 }).minv,
         ExtremaLine.maximum
          (grid_loop (max a b) h hh min_max_body (min a b)
            { minv := 1e308, maxv := -1e308, xmin := min a b, xmax := min a b,
              found := 0 }).xmax
          (grid_loop (max a b) h hh min_max_body (min a b)
            { minv := 1e308, maxv := -1e308, xmin := min a b, xmax := min a b,
              found := 0 }).maxv] := by
  unfold min_max
  rw [dif_neg (not_le.mpr hh)]
  simp only [(min_max_swap a b).1, (min_max_swap a b).2]

/-- On the grid `0, 0.5, 1` the point `0` is skipped, the minimum is at `0.5` and the
maximum at `1`. -/
theorem min_max_example :
    min_max 0 1 0.5 = [ExtremaLine.minimum 0.5 (f_value 0.5).1,
      ExtremaLine.maximum 1 (f_value 1).1] := by
  have hz : ZERO_TOL = 1e-12 := rfl
  have hh : (0 : ℝ) < 0.5 := by norm_num
  have hmin : min (0 : ℝ) 1 = 0 := min_eq_left (by norm_num)
  have hmax : max (0 : ℝ) 1 = 1 := max_eq_right (by norm_num)
  have e1 : (0 : ℝ) + 0.5 = 0.5 := by norm_num
  have e2 : (0.5 : ℝ) + 0.5 = 1 := by norm_num
  have hok1 : (f_value 0.5).2 ≠ 0 := by
    rw [f_value_ok_of_large _ (by rw [abs_of_pos (by norm_num), hz]; norm_num)]
    exact one_ne_zero
  have hok2 : (f_value 1).2 ≠ 0 := by
    rw [f_value_ok_of_large _ (by rw [abs_of_pos (by norm_num), hz]; norm_num)]
    exact one_ne_zero
  have hneg : (f_value 0.5).1 < 0 :=
    f_value_mid_pos_lt_zero 0.5 (by rw [hz]; norm_num) (by norm_num)
  have hpos := f_value_one_pos
  rw [min_max_eq 0 1 0.5 hh, hmin, hmax,
    grid_loop_step _ _ hh _ _ _ (by norm_num), min_max_body_undefined _ _ f_value_zero_undefined,
    e1, grid_loop_step _ _ hh _ _ _ (by norm_num), min_max_body_first _ _ hok1 rfl,
    e2, grid_loop_step _ _ hh _ _ _ (by norm_num),
    min_max_body_next _ _ hok2 (by norm_num),
    grid_loop_done _ _ hh _ _ _ (by norm_num)]
  simp only [if_neg (not_lt.mpr (by linarith : (f_value 0.5).1 ≤ (f_value 1).1)),
    if_pos (by linarith : (f_value 1).1 > (f_value 0.5).1)]
  rw [if_neg (by norm_num)]

/-! ## Claims -/

/-- C1: `f_value` agrees with the piecewise reference definition wherever it is
defined: `exp(-x^2)` with `ok = 1` for `x < -1`, `ln|x| / x` with `ok = 1` for
`-1 ≤ x < 1` with `|x| ≥ 1e-12`, and the six-term alternating sum of
`(-1)^n x^n / sqrt (n+2)` with `ok = 1` for `x ≥ 1`; `x = -1` uses the middle
formula and `x = 1` the sum. -/
theorem f_value_piecewise (x : ℝ) :
    (x < -1 → f_value x = (Real.exp (-(x ^ 2)), 1)) ∧
    (-1 ≤ x → x < 1 → (1e-12 : ℝ) ≤ |x| → f_value x = (Real.log |x| / x, 1)) ∧
    (1 ≤ x → f_value x
      = (∑ n in Finset.range 6, (-1 : ℝ) ^ n * x ^ n / Real.sqrt ((n : ℝ) + 2), 1)) ∧
    f_value (-1) = (Real.log |(-1 : ℝ)| / (-1), 1) ∧
    f_value 1
      = (∑ n in Finset.range 6, (-1 : ℝ) ^ n * (1 : ℝ) ^ n / Real.sqrt ((n : ℝ) + 2), 1) := by
  refine ⟨fun hx => ?_, fun h1 h2 h3 => ?_, fun hx => f_value_of_ge x hx, ?_,
    f_value_of_ge 1 le_rfl⟩
  · rw [f_value_of_lt x hx]
    congr 2
    ring
  · exact f_value_of_mid x h1 h2 h3
  · refine f_value_of_mid (-1) le_rfl (by norm_num) ?_
    unfold ZERO_TOL
    norm_num

/-- Witness for C1 at `x = -2`, `x = 1/2` and `x = 3`. -/
theorem f_value_piecewise_witness :
    f_value (-2) = (Real.exp (-((-2 : ℝ) ^ 2)), 1) ∧
    f_value (1 / 2) = (Real.log |(1 / 2 : ℝ)| / (1 / 2), 1) ∧
    f_value 3
      = (∑ n in Finset.range 6, (-1 : ℝ) ^ n * (3 : ℝ) ^ n / Real.sqrt ((n : ℝ) + 2), 1) :=
  ⟨(f_value_piecewise (-2)).1 (by norm_num),
   (f_value_piecewise (1 / 2)).2.1 (by norm_num) (by norm_num)
     (by rw [abs_of_pos (by norm_num : (0 : ℝ) < 1 / 2)]; norm_num),
   (f_value_piecewise 3).2.2.1 (by norm_num)⟩

/-- C2: `f_value` reports undefined (`ok = 0`) exactly when `|x| < ZERO_TOL = 1e-12`,
and so does `f_deriv`; whenever either reports undefined the returned value is `0`;
in particular both are undefined at `x = 0`. -/
theorem undefined_iff_near_zero (x : ℝ) :
    ZERO_TOL = 1e-12 ∧
    ((f_value x).2 = 0 ↔ |x| < ZERO_TOL) ∧
    ((f_deriv x).2 = 0 ↔ |x| < ZERO_TOL) ∧
    ((f_value x).2 = 0 → (f_value x).1 = 0) ∧
    ((f_deriv x).2 = 0 → (f_deriv x).1 = 0) ∧
    (f_value 0).2 = 0 ∧ (f_deriv 0).2 = 0 := by
  have h0 : |(0 : ℝ)| < ZERO_TOL := by
    rw [abs_zero]
    exact ZERO_TOL_pos
  refine ⟨rfl, f_value_ok_eq_zero_iff x, f_deriv_ok_eq_zero_iff x, fun h => ?_, fun h => ?_,
    (f_value_ok_eq_zero_iff 0).mpr h0, (f_deriv_ok_eq_zero_iff 0).mpr h0⟩
  · rw [f_value_of_small x ((f_value_ok_eq_zero_iff x).mp h)]
  · rw [f_deriv_of_small x ((f_deriv_ok_eq_zero_iff x).mp h)]

/-- Witness for C2 at `x = 1 / 10 ^ 13`, where both evaluators are undefined. -/
theorem undefined_iff_near_zero_witness :
    (f_value (1 / 10 ^ 13)).1 = 0 ∧ (f_deriv (1 / 10 ^ 13)).1 = 0 :=
  have hs : |(1 / 10 ^ 13 : ℝ)| < ZERO_TOL := by
    rw [abs_of_pos (by norm_num : (0 : ℝ) < 1 / 10 ^ 13)]
    unfold ZERO_TOL
    norm_num
  ⟨(undefined_iff_near_zero (1 / 10 ^ 13)).2.2.2.1 ((f_value_ok_eq_zero_iff _).mpr hs),
   (undefined_iff_near_zero (1 / 10 ^ 13)).2.2.2.2.1 ((f_deriv_ok_eq_zero_iff _).mpr hs)⟩

/-- C3: `f_deriv` is the analytic derivative of `f_value`: at every `x < -1`, every
`-1 < x < 1` with `|x| > 1e-12` and every `x > 1`, the real function
`t ↦ f_value t` is differentiable with derivative the value returned by `f_deriv x`,
which is `-2x exp(-x^2)`, `(1 - ln|x|)/x^2`, and `Σ_{n=1..5} (-1)^n n x^(n-1)/sqrt(n+2)`
respectively, with `ok = 1`. -/
theorem f_deriv_is_derivative (x : ℝ) :
    (x < -1 → HasDerivAt (fun t => (f_value t).1) (f_deriv x).1 x ∧
      f_deriv x = (-2 * x * Real.exp (-(x ^ 2)), 1)) ∧
    (-1 < x → x < 1 → (1e-12 : ℝ) < |x| →
      HasDerivAt (fun t => (f_value t).1) (f_deriv x).1 x ∧
      f_deriv x = ((1 - Real.log |x|) / x ^ 2, 1)) ∧
    (1 < x → HasDerivAt (fun t => (f_value t).1) (f_deriv x).1 x ∧
      f_deriv x = (∑ n in Finset.Icc (1 : ℕ) 5,
        (-1 : ℝ) ^ n * (n : ℝ) * x ^ (n - 1) / Real.sqrt ((n : ℝ) + 2), 1)) := by
  refine ⟨fun hx => ?_, fun h1 h2 h3 => ?_, fun hx => ?_⟩
  · have hd : f_deriv x = (-2 * x * Real.exp (-x * x), 1) := by
      simp [f_deriv, hx]
    refine ⟨?_, ?_⟩
    · rw [hd]
      exact hasDerivAt_f_value_left x hx
    · rw [hd]
      congr 3
      ring
  · have h3' : ZERO_TOL < |x| := h3
    have hd : f_deriv x = ((1 - Real.log |x|) / (x * x), 1) := by
      simp [f_deriv, not_lt.mpr h1.le, h1.le, h2, not_lt.mpr h3'.le]
    refine ⟨?_, ?_⟩
    · rw [hd]
      exact hasDerivAt_f_value_mid x h1 h2 h3'
    · rw [hd, sq]
  · have hd : f_deriv x = (∑ n in Finset.Icc (1 : ℕ) 5,
        (-1 : ℝ) ^ n * (n : ℝ) * x ^ (n - 1) / Real.sqrt ((n : ℝ) + 2), 1) := by
      have h1 : ¬ x < -1 := by linarith
      have h2 : ¬ x < 1 := by linarith
      rw [← f_deriv_series]
      simp [f_deriv, h1, h2]
    refine ⟨?_, hd⟩
    rw [hd]
    exact hasDerivAt_f_value_right x hx

/-- Witness for C3 at `x = -2`, `x = 1/2` and `x = 2`. -/
theorem f_deriv_is_derivative_witness :
    HasDerivAt (fun t => (f_value t).1) (f_deriv (-2)).1 (-2) ∧
    HasDerivAt (fun t => (f_value t).1) (f_deriv (1 / 2)).1 (1 / 2) ∧
    HasDerivAt (fun t => (f_value t).1) (f_deriv 2).1 2 :=
  ⟨((f_deriv_is_derivative (-2)).1 (by norm_num)).1,
   ((f_deriv_is_derivative (1 / 2)).2.1 (by norm_num) (by norm_num)
     (by rw [abs_of_pos (by norm_num : (0 : ℝ) < 1 / 2)]; norm_num)).1,
   ((f_deriv_is_derivative 2).2.2 (by norm_num)).1⟩

/-- C6, as stated, fails: `bisection(-2, -1, y = 0.5, eps = 1e-6)` returns `0` and
leaves `*root` alone.  The right end `-1` is evaluated by the middle branch, where
`f (-1) = 0`, and `f (-2) - 0.5` is negative as well, so there is no sign change. -/
theorem solve_half_fails :
    (f_value (-2)).1 - 1 / 2 < 0 ∧ (f_value (-1)).1 = 0 ∧
    bisection (-2) (-1) (1 / 2) 1e-6 7 = (0, 7) ∧
    ¬ ∃ r, bisection (-2) (-1) (1 / 2) 1e-6 7 = (1, r) ∧ -2 ≤ r ∧ r ≤ -1 ∧
      |(f_value r).1 - 1 / 2| < 1e-3 := by
  have h1 : (f_value (-2)).1 - 1 / 2 < 0 := by linarith [f_value_neg_two_le]
  have h2 := f_value_neg_one
  have h3 := bisection_half_fails 1e-6 7
  refine ⟨h1, h2, h3, ?_⟩
  rintro ⟨r, hr, _⟩
  rw [h3] at hr
  norm_num at hr

/-- C6 (amended): `bisection(-2, -1, y = 0.5, eps = 1e-6)` reports failure and leaves
`*root` unchanged; on a bracket `-2 ≤ a < b < -1` inside the first branch with
`(f a - y) * (f b - y) ≤ 0`, `bisection(a, b, y, eps = 1e-6)` succeeds and its root
`r` satisfies `a ≤ r ≤ b` and `|f_value r - y| < 1e-3`. -/
theorem bisection_first_branch (a b y root : ℝ) (ha : -2 ≤ a) (hab : a < b) (hb : b < -1)
    (hsign : ((f_value a).1 - y) * ((f_value b).1 - y) ≤ 0) :
    bisection (-2) (-1) (1 / 2) 1e-6 root = (0, root) ∧
    ∃ r, bisection a b y 1e-6 root = (1, r) ∧ a ≤ r ∧ r ≤ b ∧
      |(f_value r).1 - y| < 1e-3 := by
  constructor
  · exact bisection_half_fails _ root
  · have hcap : b - a ≤ 2 ^ 1000 * (1e-6 : ℝ) := by
      have hp : (2 : ℝ) ^ 20 ≤ 2 ^ 1000 := pow_le_pow_right₀ (by norm_num) (by norm_num)
      have hq : (1 : ℝ) ≤ 2 ^ 20 * 1e-6 := by norm_num
      have hr : (2 : ℝ) ^ 20 * 1e-6 ≤ 2 ^ 1000 * 1e-6 :=
        mul_le_mul_of_nonneg_right hp (by norm_num)
      linarith
    obtain ⟨r, x, h1, h2, h3, h4, h5, h6, h7⟩ :=
      bisection_one_branch a b y 1e-6 root hab hcap (Or.inl hb) hsign
    refine ⟨r, h1, h2, h3, ?_⟩
    have hl := f_value_left_lipschitz r x (by linarith) (by linarith) (by linarith)
      (by linarith)
    rw [h6] at hl
    have h8 : (4 : ℝ) * (1e-6 / 2) < 1e-3 := by norm_num
    nlinarith [abs_nonneg (r - x)]

/-- Witness for the amended C6: solving `exp(-x^2) = 0.1` on `[-2, -1.1]`. -/
theorem bisection_first_branch_witness :
    bisection (-2) (-1) (1 / 2) 1e-6 0 = (0, 0) ∧
    ∃ r, bisection (-2) (-(11 / 10)) (1 / 10) 1e-6 0 = (1, r) ∧ -2 ≤ r ∧ r ≤ -(11 / 10) ∧
      |(f_value r).1 - 1 / 10| < 1e-3 :=
  bisection_first_branch (-2) (-(11 / 10)) (1 / 10) 0 le_rfl (by norm_num) (by norm_num)
    (mul_nonpos_of_nonpos_of_nonneg (by linarith [f_value_neg_two_le])
      (by linarith [f_value_neg_eleven_tenths_ge]))

/-- C7, as stated, fails: on `[-5e-7, 5e-7]` with `y = -2e7` and `eps = 6e-7` the
first midpoint is `0`, it is nudged to `1e-6`, which lies to the right of the
bracket and becomes the new left end, and `bisection` succeeds with the root
`7.5e-7`, greater than the right end `5e-7`. -/
theorem root_outside_bracket :
    (-(1 / 2000000) : ℝ) ≤ 1 / 2000000 ∧
    bisection (-(1 / 2000000)) (1 / 2000000) (-20000000) (3 / 5000000) 0
      = (1, 3 / 4000000) ∧
    ¬ ((3 / 4000000 : ℝ) ≤ 1 / 2000000) :=
  ⟨by norm_num, bisection_small_bracket, by norm_num⟩

/-- C7 (amended): for every `a ≤ b`, `y` and `eps`, whenever `bisection` succeeds its
root `r` satisfies `a ≤ r ≤ max(b, 1e-6 + 1e-12)`; it satisfies `a ≤ r ≤ b` when the
bracket is not flagged by `crosses_undefined`, in which case no midpoint is nudged. -/
theorem bisection_root_bounds (a b y eps root r : ℝ) (hab : a ≤ b)
    (h : bisection a b y eps root = (1, r)) :
    a ≤ r ∧ r ≤ max b (1e-6 + 1e-12) ∧ (crosses_undefined a b = false → r ≤ b) := by
  obtain ⟨_, _, hsign, a', b', hloop, hr⟩ := bisection_success_inv a b y eps root r h
  obtain ⟨h1, h2, h3, h4⟩ := bisection_loop_bounds y eps a b _ _ a' b' hab hloop
  have hz : ZERO_TOL = 1e-12 := rfl
  rw [hz] at h2 h4
  refine ⟨?_, ?_, fun hc => ?_⟩
  · rw [hr]
    norm_num
    linarith
  · rw [hr]
    norm_num at h2 h4 ⊢
    rcases h2 with h2 | h2 <;> rcases h4 with h4 | h4
    · left
      linarith
    · rcases le_total b (1000001 / 1000000000000) with hb | hb
      · right
        linarith
      · left
        linarith
    · rcases le_total b (1000001 / 1000000000000) with hb | hb
      · right
        linarith
      · left
        linarith
    · right
      linarith
  · obtain ⟨k, p, q, hres, hp, hpq, hq, _⟩ :=
      bisection_regular y eps a b root hab (free_of_not_crosses a b hab hc) hsign
    rw [hres] at h
    simp only [Prod.mk.injEq, true_and] at h
    rw [← h]
    norm_num
    linarith

/-- Witness for the amended C7 on the bracket `[-5e-7, 5e-7]` of the counterexample,
where the root `7.5e-7` is below `1e-6 + 1e-12`. -/
theorem bisection_root_bounds_witness :
    (-(1 / 2000000) : ℝ) ≤ 3 / 4000000 ∧
    (3 / 4000000 : ℝ) ≤ max (1 / 2000000) (1e-6 + 1e-12) ∧
    (crosses_undefined (-(1 / 2000000)) (1 / 2000000) = false →
      (3 / 4000000 : ℝ) ≤ 1 / 2000000) :=
  bisection_root_bounds (-(1 / 2000000)) (1 / 2000000) (-20000000) (3 / 5000000) 0
    (3 / 4000000) (by norm_num) bisection_small_bracket

/-- C13: `crosses_undefined` is true whenever the singularity lies inside or on the
boundary of the interval: for every `a ≤ b` with `a ≤ 0 ≤ b` it returns true; and in
general it returns true exactly when `(a < 0 ∧ b > 0) ∨ |a| < 1e-12 ∨ |b| < 1e-12`. -/
theorem crosses_undefined_spec (a b : ℝ) :
    (a ≤ b → a ≤ 0 → 0 ≤ b → crosses_undefined a b = true) ∧
    (crosses_undefined a b = true ↔
      (a < 0 ∧ b > 0) ∨ |a| < (1e-12 : ℝ) ∨ |b| < (1e-12 : ℝ)) := by
  have hiff : crosses_undefined a b = true ↔
      (a < 0 ∧ b > 0) ∨ |a| < ZERO_TOL ∨ |b| < ZERO_TOL := by
    unfold crosses_undefined
    exact decide_eq_true_iff
  refine ⟨fun _ ha hb => ?_, hiff⟩
  rw [hiff]
  rcases ha.lt_or_eq with ha | ha
  · rcases hb.lt_or_eq with hb | hb
    · exact Or.inl ⟨ha, hb⟩
    · right
      right
      rw [← hb, abs_zero]
      exact ZERO_TOL_pos
  · right
    left
    rw [ha, abs_zero]
    exact ZERO_TOL_pos

/-- Witness for C13 on the interval `[-1, 2]`, which contains the singularity. -/
theorem crosses_undefined_spec_witness : crosses_undefined (-1) 2 = true :=
  (crosses_undefined_spec (-1) 2).1 (by norm_num) (by norm_num) (by norm_num)

/-- C14, as stated, fails: `f_value 1` is below `0.2129`, so it is not within
`0.00005` of `0.3285`. -/
theorem spot_check_value_off :
    ¬ |(f_value 1).1 - 0.3285| < (0.00005 : ℝ) := by
  have h := f_value_one_bounds.2
  rw [abs_lt]
  rintro ⟨h1, _⟩
  norm_num at h1
  linarith

/-- C14 (amended): `f_value 1` equals
`1/sqrt 2 - 1/sqrt 3 + 1/sqrt 4 - 1/sqrt 5 + 1/sqrt 6 - 1/sqrt 7`, and this value is
approximately `0.2128`: `|f_value 1 - 0.2128| < 0.00005`. -/
theorem spot_check_at_one :
    (f_value 1).1 = 1 / Real.sqrt 2 - 1 / Real.sqrt 3 + 1 / Real.sqrt 4 - 1 / Real.sqrt 5
      + 1 / Real.sqrt 6 - 1 / Real.sqrt 7 ∧
    (f_value 1).2 = 1 ∧
    |(f_value 1).1 - 0.2128| < (0.00005 : ℝ) := by
  refine ⟨?_, ?_, ?_⟩
  · rw [f_value_of_ge 1 le_rfl, series_expand]
    simp only [one_pow]
  · rw [f_value_of_ge 1 le_rfl]
  · have h := f_value_one_bounds
    rw [abs_lt]
    constructor
    · norm_num
      linarith [h.1]
    · norm_num
      linarith [h.2]

/-- C19: an interval not flagged by `crosses_undefined` is free of the singularity:
for `a ≤ b` with `crosses_undefined a b` false, `f_value` is defined (`|x| ≥ 1e-12`)
at every `x` in `[a, b]`.  Consequently, in a pass of `find_x_for_y` over an unflagged
sub-interval `[left, right]` both ends are defined, so the endpoint test after the
`crosses_undefined` test never skips, and every midpoint evaluated by `bisection` on
an unflagged bracket is defined, so the `1e-6` nudge is never taken. -/
theorem unflagged_interval_safe (a b : ℝ) (hab : a ≤ b)
    (hc : crosses_undefined a b = false) :
    (∀ x, a ≤ x → x ≤ b → (1e-12 : ℝ) ≤ |x| ∧ (f_value x).2 = 1) ∧
    (∀ y eps : ℝ, ∀ c ∈ bisection_midpoints y eps 0 a b ((f_value a).1 - y)
        ((f_value b).1 - y), (1e-12 : ℝ) ≤ |c| ∧ (f_value c).2 ≠ 0) ∧
    (∀ p q y : ℝ, a ≤ p → p ≤ q → q ≤ b →
      bisection_mid p q y = some (0.5 * (p + q), (f_value (0.5 * (p + q))).1 - y)) ∧
    (∀ B h left : ℝ, 0 < h → left < B →
      crosses_undefined left (min (left + h) B) = false →
      ¬ ¬ ((f_value left).2 ≠ 0 ∧ (f_value (min (left + h) B)).2 ≠ 0) ∧
      ∀ y eps : ℝ, ∀ c ∈ bisection_midpoints y eps 0 left (min (left + h) B)
          ((f_value left).1 - y) ((f_value (min (left + h) B)).1 - y),
        (f_value c).2 ≠ 0) := by
  have hfree := free_of_not_crosses a b hab hc
  have hok : ∀ x : ℝ, ZERO_TOL ≤ |x| → (f_value x).2 ≠ 0 := by
    intro x hx
    rw [f_value_ok_of_large x hx]
    exact one_ne_zero
  refine ⟨fun x h1 h2 => ⟨hfree x h1 h2, f_value_ok_of_large x (hfree x h1 h2)⟩,
    fun y eps c hmem => ?_, fun p q y h1 h2 h3 => ?_, fun B h left hh hlt hcl => ?_⟩
  · have h1 := bisection_midpoints_free y eps a b hfree 1000 0 a b _ _ rfl le_rfl hab le_rfl
      c hmem
    exact ⟨h1, hok c h1⟩
  · rw [bisection_mid_eq, nudged_of_free p q a b hfree h1 h2 h3]
  · rw [← right_edge_eq_min] at hcl ⊢
    have hR := right_edge_gt B h left hh hlt
    have hfree' := free_of_not_crosses _ _ hR.le hcl
    refine ⟨not_not.mpr ⟨hok _ (hfree' left le_rfl hR.le), hok _ (hfree' _ hR.le le_rfl)⟩,
      fun y eps c hmem => ?_⟩
    exact hok c (bisection_midpoints_free y eps _ _ hfree' 1000 0 _ _ _ _ rfl le_rfl hR.le
      le_rfl c hmem)

/-- Witness for C19 on the interval `[1/4, 1/2]` at the point `1/3`. -/
theorem unflagged_interval_safe_witness :
    (1e-12 : ℝ) ≤ |(1 / 3 : ℝ)| ∧ (f_value (1 / 3)).2 = 1 :=
  (unflagged_interval_safe (1 / 4) (1 / 2) (by norm_num)
    (not_crosses_of_pos (1 / 4) (1 / 2) (by unfold ZERO_TOL; norm_num) (by norm_num))).1
    (1 / 3) (by norm_num) (by norm_num)

end

end MainC
